import Mathlib

/-!
Verification of the `omicron-process` segment engine, workflow compiler and
execution driver (`omicron/cli/process.py`) against its design document.

Times are GPS integers (Python ints), so segments are modelled as pairs of
integers.  A `ligo.segments.segment` always stores its endpoints in order,
which `mkSeg` reproduces.
-/

namespace PyOmicron

/-- A half-open integer interval `[start, end)`. -/
abbrev Seg := ℤ × ℤ

/-- `ligo.segments.segment(a, b)` stores the two endpoints in sorted order. -/
def mkSeg (a b : ℤ) : Seg := if a ≤ b then (a, b) else (b, a)

/-- `abs(seg)` in ligo.segments: the duration `end - start`. -/
def segDur (s : Seg) : ℤ := s.2 - s.1

/-- Lexicographic order used by `segmentlist.sort()` (Python tuple order). -/
def segLe (a b : Seg) : Prop := a.1 < b.1 ∨ (a.1 = b.1 ∧ a.2 ≤ b.2)

instance : DecidableRel segLe := fun a b => by
  unfold segLe; infer_instance

/-- One step of the merge sweep of `segmentlist.coalesce()`: `cur` is the
segment being accumulated; later segments that overlap or touch it extend
it, and zero-duration segments are dropped when emitted. -/
def mergeInto (cur : Seg) : List Seg → List Seg
  | [] => if cur.1 < cur.2 then [cur] else []
  | b :: rest =>
    if b.1 ≤ cur.2 then mergeInto (cur.1, max cur.2 b.2) rest
    else (if cur.1 < cur.2 then [cur] else []) ++ mergeInto b rest

/-- The merge sweep of `segmentlist.coalesce()`: assuming the list is sorted,
merge overlapping or touching segments and drop zero-duration ones. -/
def mergePass : List Seg → List Seg
  | [] => []
  | a :: rest => mergeInto a rest

/-- `segmentlist.coalesce()`: sort, then merge overlapping/touching segments,
dropping empty ones. -/
def coalesceList (xs : List Seg) : List Seg :=
  mergePass (xs.insertionSort segLe)

/-- Intersection of two segments (empty when they are disjoint;
`coalesceList` afterwards removes the degenerate results). -/
def intersectSeg (a b : Seg) : Seg := (max a.1 b.1, min a.2 b.2)

/-- `segmentlist.__and__` on coalesced lists: pairwise intersections,
coalesced. -/
def intersectList (as bs : List Seg) : List Seg :=
  coalesceList (as.flatMap (fun a => bs.map (fun b => intersectSeg a b)))

/-- `segment.contract(x)` as used by `segmentlist.contract`:
`segment(seg[0] + x, seg[1] - x)` (endpoints re-sorted by the constructor). -/
def contractSeg (x : ℤ) (s : Seg) : Seg := mkSeg (s.1 + x) (s.2 - x)

/-- `segmentlist.contract(x)`: contract each segment, then coalesce.
Used at process.py:962 as `segs.contract(padding)`. -/
def contractList (x : ℤ) (xs : List Seg) : List Seg :=
  coalesceList (xs.map (contractSeg x))

/-! ## Minimum-span check (process.py lines 763-777)

`minduration = 1 * chunkdur`; a padded span shorter than this makes an
online run exit cleanly with status 0 (after cleaning the run directories)
while an offline run raises `ValueError`. -/

/-- Outcome of the minimum-duration validation of the padded span. -/
inductive SpanOutcome
  | exitClean (code : ℕ)
  | fatalError
  | proceed
deriving DecidableEq, Repr

/-- `minduration = 1 * chunkdur` (process.py:764). -/
def minduration (chunkdur : ℤ) : ℤ := 1 * chunkdur

/-- The `if dataduration < minduration and online ... elif ...` branch at
process.py lines 767-777: online exits cleanly with code 0, offline raises. -/
def span_length_check (online : Bool) (datastart dataend chunkdur : ℤ) :
    SpanOutcome :=
  let dataduration := dataend - datastart
  if dataduration < minduration chunkdur ∧ online = true then
    SpanOutcome.exitClean 0
  else if dataduration < minduration chunkdur then
    SpanOutcome.fatalError
  else
    SpanOutcome.proceed

/-- C8: if the padded span is shorter than one chunk duration then an online
run exits cleanly with status 0 while an offline run raises a fatal error,
and for spans of at least one chunk duration neither branch is taken. -/
theorem span_too_short_c8 (online : Bool) (datastart dataend chunkdur : ℤ) :
    (span_length_check online datastart dataend chunkdur =
        SpanOutcome.exitClean 0 ↔
      dataend - datastart < chunkdur ∧ online = true) ∧
    (span_length_check online datastart dataend chunkdur =
        SpanOutcome.fatalError ↔
      dataend - datastart < chunkdur ∧ online = false) ∧
    (span_length_check online datastart dataend chunkdur =
        SpanOutcome.proceed ↔
      chunkdur ≤ dataend - datastart) := by
  rcases online <;>
    (dsimp only [span_length_check, minduration];
      split_ifs with h1 h2 <;> simp_all <;> omega)

/-- Witness for C8 at a concrete input: span `[0, 10)` with chunk duration
124 in online mode exits cleanly with code 0. -/
theorem span_too_short_c8_witness :
    span_length_check true 0 10 124 = SpanOutcome.exitClean 0 :=
  (span_too_short_c8 true 0 10 124).1.mpr ⟨by decide, rfl⟩

/-! ## Metric-day splitting (process.py lines 925-938)

The loop builds `seg_tmp`, splitting any segment whose endpoints fall in
different metric days, but

  * the split point used is `eday = int(seg[1] / 1e5)` — the *day index* —
    rather than the boundary `eday * 100000`, and
  * `seg_tmp` is never used again: the following statement recomputes
    `segs` from the *original* `segs`, so the split list is discarded.
-/

/-- The `seg_tmp` list built by the loop at process.py lines 926-936.
`int(seg[0] / 1e5)` is truncating division of a non-negative GPS time. -/
def seg_tmp_build (segs : List Seg) : List Seg :=
  segs.flatMap (fun seg =>
    let sday : ℤ := seg.1 / 100000
    let eday : ℤ := seg.2 / 100000
    if sday = eday then [seg]
    else [mkSeg seg.1 eday, mkSeg eday seg.2])

/-- What the spec asks for: split each segment straddling a multiple of
100000 at that boundary. (Modelled from the spec for comparison only.) -/
def metric_day_split_spec (segs : List Seg) : List Seg :=
  segs.flatMap (fun seg =>
    let sday : ℤ := seg.1 / 100000
    let eday : ℤ := seg.2 / 100000
    if sday = eday then [seg]
    else [(seg.1, eday * 100000), (eday * 100000, seg.2)])

/-- The segment list that actually proceeds to the minimum-duration filter
(process.py:938): it is computed from the *original* `segs`, with `seg_tmp`
discarded. -/
def segs_to_min_duration_filter (segdur : ℤ) (segs : List Seg) : List Seg :=
  let _seg_tmp := seg_tmp_build segs
  segs.filter (fun s => segdur ≤ segDur s)

/-- C4 (code bug): for the segment `[99950, 100050)` straddling the metric
day boundary 100000, the list reaching the minimum-duration filter is the
*unsplit* original (the built split list is discarded), and the split list
itself uses the day index 1 as split point instead of the boundary 100000. -/
theorem metric_day_split_bug :
    segs_to_min_duration_filter 10 [((99950 : ℤ), 100050)] =
      [((99950 : ℤ), 100050)] ∧
    seg_tmp_build [((99950 : ℤ), 100050)] = [((1 : ℤ), 99950), (1, 100050)] ∧
    metric_day_split_spec [((99950 : ℤ), 100050)] =
      [((99950 : ℤ), 100000), (100000, 100050)] := by
  refine ⟨?_, ?_, ?_⟩ <;> decide

/-! ## Post-processing merge commands (process.py lines 1147-1181)

Each enabled output format contributes one merge operation per channel to
the generated post-processing script.  The `--no-merge` flag is computed
per format; note that the HDF5 branch (line 1162) reads
`args.skip_root_merge`, not `args.skip_hdf5_merge`. -/

/-- The pipeline skip options as parsed from the command line. -/
structure SkipArgs where
  skip_root_merge : Bool
  skip_hdf5_merge : Bool
  skip_ligolw_add : Bool
  skip_gzip : Bool
deriving DecidableEq, Repr

/-- ROOT merge operation string (process.py lines 1151-1154). -/
def root_merge_op (args : SkipArgs) (prog mergepath rootfiles : String) :
    String :=
  let no_merge := if args.skip_root_merge then "--no-merge" else ""
  "  " ++ prog ++ " " ++ no_merge ++ "  --out-dir " ++ mergepath ++ " "
    ++ rootfiles ++ " "

/-- HDF5 merge operation string (process.py lines 1158-1166).  The source
computes `no_merge = '--no-merge' if args.skip_root_merge else ''` here. -/
def hdf5_merge_op (args : SkipArgs) (prog mergepath hdf5files : String) :
    String :=
  let no_merge := if args.skip_root_merge then "--no-merge" else ""
  "  " ++ prog ++ " " ++ no_merge ++ "  " ++ " --out-dir " ++ mergepath
    ++ " " ++ hdf5files ++ " "

/-- LIGO_LW (XML) merge operation string (process.py lines 1170-1179). -/
def xml_merge_op (args : SkipArgs) (prog mergepath xmlfiles : String) :
    String :=
  let no_merge := if args.skip_ligolw_add then "--no-merge" else ""
  let no_gzip := if args.skip_gzip then "--no-gzip" else ""
  "  " ++ prog ++ " " ++ no_merge ++ " " ++ no_gzip ++ " --uint-bug "
    ++ " --out-dir " ++ mergepath ++ " " ++ xmlfiles ++ " "

/-- What the spec (and the option help text) require for the HDF5 branch:
the flag is controlled by `--skip-hdf5-merge`.  (Modelled from the spec for
comparison only.) -/
def hdf5_merge_op_spec (args : SkipArgs) (prog mergepath hdf5files : String) :
    String :=
  let no_merge := if args.skip_hdf5_merge then "--no-merge" else ""
  "  " ++ prog ++ " " ++ no_merge ++ "  " ++ " --out-dir " ++ mergepath
    ++ " " ++ hdf5files ++ " "

/-- C5 (code bug): with `--skip-root-merge` given and `--skip-hdf5-merge`
not given, the HDF5 merge command carries `--no-merge`; with
`--skip-hdf5-merge` given and `--skip-root-merge` not given it does not.
So the HDF5 command is controlled by the ROOT skip option, diverging from
the spec-modelled command in both cases. -/
theorem hdf5_merge_flag_bug :
    (hdf5_merge_op ⟨true, false, false, false⟩ "m" "d" "f" =
      "  m --no-merge   --out-dir d f ") ∧
    (hdf5_merge_op ⟨false, true, false, false⟩ "m" "d" "f" =
      "  m    --out-dir d f ") ∧
    (hdf5_merge_op ⟨true, false, false, false⟩ "m" "d" "f" ≠
      hdf5_merge_op_spec ⟨true, false, false, false⟩ "m" "d" "f") ∧
    (hdf5_merge_op ⟨false, true, false, false⟩ "m" "d" "f" ≠
      hdf5_merge_op_spec ⟨false, true, false, false⟩ "m" "d" "f") := by
  refine ⟨rfl, rfl, ?_, ?_⟩ <;> decide

/-! ## The watermark (`segments.txt`) and the run control flow

`segments.write_segments(..., segfile)` is called from exactly three places
in `main`:

  * process.py:948 — online, new DAG, zero analysable segments but
    `alldata` true ("catch-up" write, no submission);
  * process.py:1322 — `--no-submit` with a new DAG, right before
    `sys.exit(0)` (no submission);
  * process.py:1365 — in the submit loop, immediately after
    `condor.submit_dag` returned, on the first iteration only.

`runMain` models the branch structure of `main` from the minimum-duration
check onwards, with the data-dependent conditions supplied as booleans. -/

/-- Result of one run of `main`: whether the watermark file was written,
whether a DAG was successfully submitted, and how the process ended
(`some code` = `sys.exit(code)`, `none` = exception raised). -/
structure RunResult where
  wrote : Bool
  submitted : Bool
  exitcode : Option ℤ
deriving DecidableEq, Repr

/-- Control flow of `main` (process.py) from the span check to the submit
loop.  `spanTooShort` is `dataduration < minduration`; `segsEmpty` is
`len(segs) == 0` after the state/availability intersection and the
minimum-duration filter; `alldata` is the coverage flag of lines 901-910;
`submitOk` tells whether `condor.submit_dag` returns without raising.

Branches, in source order:
  * lines 767-777: span too short (online exit 0 / offline raise);
  * lines 942-951: catch-up write, exit 0, no submission;
  * lines 954-957: online no-op retry, exit 0, nothing written;
  * lines 958-959: offline `RuntimeError`, nothing written;
  * lines 1320-1325: `--no-submit`: write iff new DAG, exit 0, no submission;
  * lines 1337-1366: reattach finds the running DAG (no submission, no
    write); otherwise submit, then write the watermark on iteration 0. -/
def runMain (online rescue reattach noSubmit : Bool)
    (spanTooShort segsEmpty alldata submitOk : Bool) : RunResult :=
  let newdag := !rescue && !reattach
  if spanTooShort then
    if online then ⟨false, false, some 0⟩ else ⟨false, false, none⟩
  else if newdag && segsEmpty && online && alldata then
    ⟨true, false, some 0⟩
  else if segsEmpty && online then
    ⟨false, false, some 0⟩
  else if segsEmpty then
    ⟨false, false, none⟩
  else if noSubmit then
    if newdag then ⟨true, false, some 0⟩ else ⟨false, false, some 0⟩
  else if reattach then
    ⟨false, false, some 0⟩
  else if submitOk then
    ⟨true, true, some 0⟩
  else
    ⟨false, false, none⟩

/-- C1 counterexample: a run with `--no-submit` building a new DAG ends
without any submission, yet the watermark file *is* written (process.py
lines 1320-1325).  This refutes the claim that every run exiting before a
successful submission leaves the watermark untouched. -/
theorem no_submit_writes_watermark :
    (runMain false false false true false false false false).wrote = true ∧
    (runMain false false false true false false false false).submitted
      = false := by
  decide

/-- C1 amended: the watermark is written on a path without a successful
submission exactly when a new DAG is being built, the span is long enough,
and either (a) `--no-submit` was given with a non-empty segment list, or
(b) the run is online with zero analysable segments but `alldata` true
(the catch-up write).  Every other unsubmitted path leaves it untouched. -/
theorem watermark_unsubmitted_paths (online rescue reattach noSubmit : Bool)
    (spanTooShort segsEmpty alldata submitOk : Bool) :
    ((runMain online rescue reattach noSubmit
        spanTooShort segsEmpty alldata submitOk).wrote = true ∧
     (runMain online rescue reattach noSubmit
        spanTooShort segsEmpty alldata submitOk).submitted = false) ↔
    (spanTooShort = false ∧ rescue = false ∧ reattach = false ∧
      ((segsEmpty = true ∧ online = true ∧ alldata = true) ∨
       (segsEmpty = false ∧ noSubmit = true))) := by
  rcases online <;> rcases rescue <;> rcases reattach <;> rcases noSubmit <;>
    rcases spanTooShort <;> rcases segsEmpty <;> rcases alldata <;>
    rcases submitOk <;> decide

/-! ## `alldata` and the catch-up write (process.py lines 901-910, 940-951)

`cachesegs = (segments.cache_segments(cache) & dataspan).coalesce()`;
`alldata = cachesegs[-1][1] >= dataspan[-1][1]`, with any `TypeError`
(empty cache) or `IndexError` (no overlap) making it `False`.  Note this
only compares the *end* of the last cached segment against the end of the
data span: gaps earlier in the span do not make `alldata` false. -/

/-- The `alldata` flag computed at process.py lines 901-910, given the
already-intersected `cachesegs` and the `dataspan` list. -/
def alldata_calc (cachesegs dataspan : List Seg) : Bool :=
  match cachesegs.getLast?, dataspan.getLast? with
  | some c, some d => decide (d.2 ≤ c.2)
  | _, _ => false

/-- Full coverage of the data span by the cached segments, as the spec
words it ("available data fully covers the requested extent").  Modelled
from the spec for comparison: total covered duration equals the span
duration (for `cachesegs` already intersected with the span and coalesced,
this is exact coverage). -/
def fully_covers_spec (cachesegs dataspan : List Seg) : Bool :=
  decide ((cachesegs.map segDur).sum = (dataspan.map segDur).sum)

/-- C2 counterexample: frames covering only `[1500, 2000)` of the data span
`[1000, 2000)`.  `alldata` is computed `true` although coverage is
incomplete, and the online catch-up branch then writes the watermark, so
"watermark advances iff the data fully covers the span" is false. -/
theorem alldata_not_full_coverage :
    intersectList [((1500 : ℤ), 2000)] [((1000 : ℤ), 2000)] =
      [((1500 : ℤ), 2000)] ∧
    alldata_calc [((1500 : ℤ), 2000)] [((1000 : ℤ), 2000)] = true ∧
    fully_covers_spec [((1500 : ℤ), 2000)] [((1000 : ℤ), 2000)] = false ∧
    (runMain true false false false false true
        (alldata_calc [((1500 : ℤ), 2000)] [((1000 : ℤ), 2000)]) true).wrote
      = true := by
  refine ⟨?_, ?_, ?_, ?_⟩ <;> decide

/-- C2 amended: in an online new-DAG run with zero analysable segments (and
a long-enough span), the watermark is written iff `alldata` holds, i.e. iff
the cached segments restricted to the data span are non-empty and the last
one ends at or after the end of the data span — data availability must
reach `dataEnd`, but earlier gaps do not prevent the advance. -/
theorem catchup_write_iff_alldata (noSubmit submitOk : Bool)
    (cachesegs : List Seg) (dataspan : Seg) :
    ((runMain true false false noSubmit false true
        (alldata_calc cachesegs [dataspan]) submitOk).wrote = true ↔
      alldata_calc cachesegs [dataspan] = true) ∧
    (alldata_calc cachesegs [dataspan] = true ↔
      ∃ c, cachesegs.getLast? = some c ∧ dataspan.2 ≤ c.2) := by
  constructor
  · cases h : alldata_calc cachesegs [dataspan] <;>
      rcases noSubmit <;> rcases submitOk <;> simp [runMain]
  · unfold alldata_calc
    cases h : cachesegs.getLast? with
    | none => simp
    | some c => simp

/-- Witness for C2's amended theorem at a concrete input: with cached
segments `[[1500, 2000)]` and data span `[1000, 2000)`, the catch-up
branch writes the watermark. -/
theorem catchup_write_iff_alldata_witness :
    (runMain true false false false false true
        (alldata_calc [((1500 : ℤ), 2000)] [((1000 : ℤ), 2000)]) false).wrote
      = true :=
  (catchup_write_iff_alldata false false
    [((1500 : ℤ), 2000)] ((1000 : ℤ), 2000)).1.mpr (by decide)

/-! ## The submit/monitor loop (process.py lines 1337-1412)

`for i in range(args.submit_rescue_dag + 1)`: each iteration submits the
DAG (`condor.submit_dag`), monitors it, and reads the terminal status.
A missing exit code breaks with a warning; exit code 0 breaks with
success; otherwise, if `i == args.submit_rescue_dag` the run raises
`RuntimeError("DAG has failed to complete %d times" % (N + 1))`, else the
rescue DAG is located and the loop continues (resubmitting). -/

/-- Terminal state of the driver loop, recording how many submissions were
performed; `permFail` also records the attempt count in the error. -/
inductive DriverResult
  | success (submissions : ℕ)
  | unknown (submissions : ℕ)
  | permFail (submissions attempts : ℕ)
deriving DecidableEq, Repr

/-- The loop body of process.py lines 1337-1412 (fresh-submission mode).
`remaining` is the number of loop iterations left (`N + 1 - i`), `i` the
current index, `subs` the submissions performed so far.  `outcomes i` is
the monitored exit code of iteration `i` (`none` = status unknown). -/
def driverGo (N : ℕ) (outcomes : ℕ → Option ℤ) :
    ℕ → ℕ → ℕ → DriverResult
  | 0, _, subs => DriverResult.unknown subs
  | remaining + 1, i, subs =>
    match outcomes i with
    | none => DriverResult.unknown (subs + 1)
    | some c =>
      if c = 0 then DriverResult.success (subs + 1)
      else if i = N then DriverResult.permFail (subs + 1) (N + 1)
      else driverGo N outcomes remaining (i + 1) (subs + 1)

/-- The whole driver loop with rescue budget `N = args.submit_rescue_dag`. -/
def driver (N : ℕ) (outcomes : ℕ → Option ℤ) : DriverResult :=
  driverGo N outcomes (N + 1) 0 0

/-- All-failure unrolling of `driverGo`. -/
theorem driverGo_all_fail (N : ℕ) (outcomes : ℕ → Option ℤ) :
    ∀ remaining i subs, remaining = N + 1 - i → i ≤ N →
    (∀ j, i ≤ j → j ≤ N → ∃ c, outcomes j = some c ∧ c ≠ 0) →
    driverGo N outcomes remaining i subs =
      DriverResult.permFail (subs + (N + 1 - i)) (N + 1) := by
  intro remaining
  induction remaining with
  | zero => intro i subs hr hi _; omega
  | succ r ih =>
    intro i subs hr hi hfail
    obtain ⟨c, hc, hc0⟩ := hfail i le_rfl hi
    by_cases hiN : i = N
    · subst hiN
      simp [driverGo, hc, hc0]
    · have hi' : i + 1 ≤ N := by omega
      have := ih (i + 1) (subs + 1) (by omega) hi'
        (fun j hj hj' => hfail j (by omega) hj')
      simp [driverGo, hc, hc0, hiN, this]
      omega

/-- First-success unrolling of `driverGo`. -/
theorem driverGo_first_success (N : ℕ) (outcomes : ℕ → Option ℤ) :
    ∀ remaining i subs, remaining = N + 1 - i → i ≤ N →
    ∀ k, i ≤ k → k ≤ N →
    (∀ j, i ≤ j → j < k → ∃ c, outcomes j = some c ∧ c ≠ 0) →
    outcomes k = some 0 →
    driverGo N outcomes remaining i subs =
      DriverResult.success (subs + (k - i) + 1) := by
  intro remaining
  induction remaining with
  | zero => intro i subs hr hi _ _ _ _ _; omega
  | succ r ih =>
    intro i subs hr hi k hik hkN hfail hk
    by_cases hieq : i = k
    · subst hieq
      simp [driverGo, hk]
    · obtain ⟨c, hc, hc0⟩ := hfail i le_rfl (by omega)
      have hiN : i ≠ N := by omega
      have := ih (i + 1) (subs + 1) (by omega) (by omega) k (by omega) hkN
        (fun j hj hj' => hfail j (by omega) hj') hk
      simp [driverGo, hc, hc0, hiN, this]
      omega

/-- C7: with rescue budget `N` and every monitored execution failing
(non-zero exit code), the driver performs exactly `N + 1` submissions and
then fails permanently reporting `N + 1` attempts; and if the executions
up to iteration `k` fail and iteration `k` exits with code 0, the driver
stops successfully after exactly `k + 1` submissions. -/
theorem driver_rescue_loop (N : ℕ) (outcomes : ℕ → Option ℤ) :
    ((∀ j, j ≤ N → ∃ c, outcomes j = some c ∧ c ≠ 0) →
      driver N outcomes = DriverResult.permFail (N + 1) (N + 1)) ∧
    (∀ k, k ≤ N →
      (∀ j, j < k → ∃ c, outcomes j = some c ∧ c ≠ 0) →
      outcomes k = some 0 →
      driver N outcomes = DriverResult.success (k + 1)) := by
  constructor
  · intro hfail
    have := driverGo_all_fail N outcomes (N + 1) 0 0 (by omega)
      (Nat.zero_le N) (fun j _ hj => hfail j hj)
    simpa using this
  · intro k hk hfail hsucc
    have := driverGo_first_success N outcomes (N + 1) 0 0 (by omega)
      (Nat.zero_le N) k (Nat.zero_le k) hk
      (fun j _ hj => hfail j hj) hsucc
    simpa using this

/-- Witness for C7 at concrete inputs: with budget 2 and three consecutive
failures the driver submits 3 times and fails permanently with 3 attempts;
with a failure followed by a success it stops after 2 submissions. -/
theorem driver_rescue_loop_witness :
    driver 2 (fun _ => some 1) = DriverResult.permFail 3 3 ∧
    driver 2 (fun i => if i = 0 then some 1 else some 0)
      = DriverResult.success 2 := by
  constructor
  · exact (driver_rescue_loop 2 (fun _ => some 1)).1
      (fun j _ => ⟨1, rfl, by decide⟩)
  · exact (driver_rescue_loop 2 (fun i => if i = 0 then some 1 else some 0)).2
      1 (by decide)
      (fun j hj => ⟨1, by interval_cases j; simp, by decide⟩)
      (by simp)

/-! ## Channel-list parsing and `--exclude-channel` (process.py lines 550-563)

`channels` starts as a Python list of the lines of the `channels` option.
The two-column `'channel samplerate'` format is detected by
`channels, crates = zip(*[c.split(' ', 1) for c in channels])`: this
succeeds (rebinding `channels` to a *tuple*) exactly when every line
contains a space; otherwise the `ValueError` is caught and `channels`
stays a list.  The exclusion loop then calls `channels.pop(i)` for each
matching channel, which raises `AttributeError` on a tuple. -/

/-- Whether a line contains a space, i.e. `c.split(' ', 1)` has two parts. -/
def hasSpace (l : String) : Bool := l.data.any (fun ch => ch = ' ')

/-- `c.split(' ', 1)[0]`: the part of a line before its first space. -/
def firstField (l : String) : String :=
  String.mk (l.data.takeWhile (fun ch => ch ≠ ' '))

/-- The channel parsing of process.py lines 550-556: returns whether the
resulting `channels` object is a tuple (immutable) and the channel names.
The `zip(*...)` unpacking succeeds iff the line list is non-empty and
every line contains a space. -/
def parse_channels (lines : List String) : Bool × List String :=
  if lines.isEmpty then (false, lines)
  else if lines.all hasSpace then (true, lines.map firstField)
  else (false, lines)

/-- Whether the modelled run of the exclusion loop raised an exception. -/
def isError : Except String (List String) → Bool
  | Except.error _ => true
  | Except.ok _ => false

/-- The exclusion loop of process.py lines 558-562: iterate over indices in
descending order and `pop` each channel found in `exclude`.  Descending
order means the tail is processed before the head; `pop` on a tuple raises
`AttributeError`. -/
def exclude_channels (immutable : Bool) (exclude : List String) :
    List String → Except String (List String)
  | [] => Except.ok []
  | c :: rest =>
    match exclude_channels immutable exclude rest with
    | Except.error e => Except.error e
    | Except.ok rest' =>
      if c ∈ exclude then
        if immutable then Except.error "AttributeError"
        else Except.ok rest'
      else Except.ok (c :: rest')

/-- The exclusion loop fails exactly when the channel object is immutable
and some channel is excluded. -/
theorem exclude_channels_error_iff (immutable : Bool)
    (exclude : List String) (chans : List String) :
    isError (exclude_channels immutable exclude chans) = true ↔
      (immutable = true ∧ ∃ c ∈ chans, c ∈ exclude) := by
  induction chans with
  | nil => simp [exclude_channels, isError]
  | cons c rest ih =>
    simp only [exclude_channels]
    cases hrec : exclude_channels immutable exclude rest with
    | error e =>
      rw [hrec] at ih
      constructor
      · intro _
        obtain ⟨him, d, hd, hde⟩ := ih.mp rfl
        exact ⟨him, d, List.mem_cons_of_mem c hd, hde⟩
      · intro _
        rfl
    | ok rest' =>
      rw [hrec] at ih
      have hrest : ¬(immutable = true ∧ ∃ d ∈ rest, d ∈ exclude) := by
        intro hcontra
        exact absurd (ih.mpr hcontra) (by simp [isError])
      by_cases hc : c ∈ exclude
      · rcases immutable with _ | _
        · simp only [hc, if_true, Bool.false_eq_true, if_false]
          constructor
          · intro h; exact absurd h (by simp [isError])
          · rintro ⟨h, -⟩; exact absurd h (by simp)
        · simp only [hc, if_true, if_true]
          constructor
          · intro _; exact ⟨by trivial, c, List.mem_cons_self c rest, hc⟩
          · intro _; rfl
      · simp only [hc, if_false]
        constructor
        · intro h; exact absurd h (by simp [isError])
        · rintro ⟨him, d, hd, hde⟩
          rcases List.mem_cons.mp hd with rfl | hd'
          · exact absurd hde hc
          · exact absurd ⟨him, d, hd', hde⟩ hrest

/-- In the mutable (single-column) case the loop succeeds and returns the
filtered channel list. -/
theorem exclude_channels_mutable (exclude : List String)
    (chans : List String) :
    exclude_channels false exclude chans =
      Except.ok (chans.filter (fun c => !(exclude.contains c))) := by
  induction chans with
  | nil => simp [exclude_channels]
  | cons c rest ih =>
    by_cases hc : c ∈ exclude <;>
      simp [exclude_channels, ih, hc, List.filter_cons]

/-- C10: with the two-column channel format, parsing yields an immutable
(tuple) channel sequence, and the exclusion loop raises `AttributeError`
iff one of the parsed channels is excluded; with any non-two-column line
list parsing yields a mutable list and exclusion always succeeds (with the
excluded channels filtered out). -/
theorem two_column_exclusion_attribute_error
    (lines lines1 exclude : List String)
    (h2 : lines.isEmpty = false ∧ lines.all hasSpace = true)
    (h1 : lines1.all hasSpace = false) :
    (parse_channels lines).1 = true ∧
    (isError (exclude_channels true exclude (parse_channels lines).2)
        = true ↔ ∃ c ∈ (parse_channels lines).2, c ∈ exclude) ∧
    (parse_channels lines1).1 = false ∧
    exclude_channels false exclude (parse_channels lines1).2 =
      Except.ok ((parse_channels lines1).2.filter
        (fun c => !(exclude.contains c))) := by
  obtain ⟨hne, hall⟩ := h2
  refine ⟨?_, ?_, ?_, ?_⟩
  · simp [parse_channels, hne, hall]
  · rw [exclude_channels_error_iff]
    simp
  · cases h : lines1.isEmpty <;> simp [parse_channels, h, h1]
  · exact exclude_channels_mutable _ _

/-- Witness for C10 at a concrete input: the two-column list
`["H1:A 16384", "H1:B 16384"]` with `--exclude-channel H1:A` makes the
exclusion loop raise, while the single-column list `["H1:A", "H1:B"]`
is filtered successfully. -/
theorem two_column_exclusion_witness :
    isError (exclude_channels true ["H1:A"]
      (parse_channels ["H1:A 16384", "H1:B 16384"]).2) = true ∧
    exclude_channels false ["H1:A"]
      (parse_channels ["H1:A", "H1:B"]).2 = Except.ok ["H1:B"] := by
  have h := two_column_exclusion_attribute_error
    ["H1:A 16384", "H1:B 16384"] ["H1:A", "H1:B"] ["H1:A"]
    ⟨by decide, by decide⟩ (by decide)
  refine ⟨h.2.1.mpr ⟨"H1:A", by decide, by decide⟩, ?_⟩
  have h4 := h.2.2.2
  simpa using h4

/-! ## End-of-data truncation (process.py lines 841-876)

In an online run building a new DAG, if the last state/frame segment ends
exactly at `dataend`, the engine either drops it (duration `< 2*chunkdur`)
or truncates it: `e -= chunkdur + padding`, then

    step = chunkdur
    while t + chunkdur <= e:
        t += step
        step = chunkdur - overlap

and the last segment becomes `(lastseg[0], t)`. -/

/-- The `while t + chunkdur <= e` loop of process.py lines 870-873,
with explicit fuel (the loop always terminates since each step adds at
least `chunkdur - overlap > 0`). -/
def truncLoop (chunkdur overlap e : ℤ) : ℕ → ℤ → ℤ → ℤ
  | 0, t, _ => t
  | fuel + 1, t, step =>
    if t + chunkdur ≤ e then
      truncLoop chunkdur overlap e fuel (t + step) (chunkdur - overlap)
    else t

/-- The truncated end of the trailing segment `[s, e)`:
one chunk (plus padding) removed, then stepped down (lines 867-874). -/
def truncate_last_end (chunkdur overlap padding s e : ℤ) : ℤ :=
  let eRed := e - (chunkdur + padding)
  truncLoop chunkdur overlap eRed ((eRed - s).toNat + 1) s chunkdur

/-- The truncation branch of process.py lines 841-876: decides whether to
truncate (`online and newdag and lastseg[1] == dataend`), and either drops
a short trailing segment (resetting `dataend` to its start) or replaces it
by its stepped-down version.  Returns the new segment list and the new
`dataend`. -/
def truncate_segs (online newdag : Bool) (chunkdur overlap padding : ℤ)
    (dataend : ℤ) (segs : List Seg) : List Seg × ℤ :=
  match segs.getLast? with
  | none => (segs, dataend)
  | some lastseg =>
    if online = true ∧ newdag = true ∧ lastseg.2 = dataend then
      if segDur lastseg < chunkdur * 2 then
        (segs.dropLast, lastseg.1)
      else
        let t := truncate_last_end chunkdur overlap padding lastseg.1
          lastseg.2
        (segs.dropLast ++ [(lastseg.1, t)], t)
    else (segs, dataend)

/-- The loop result either never moved or stays at most `e`. -/
theorem truncLoop_le (chunkdur overlap e : ℤ) (ho : 0 ≤ overlap) :
    ∀ fuel t step, step ≤ chunkdur →
      truncLoop chunkdur overlap e fuel t step = t ∨
        truncLoop chunkdur overlap e fuel t step ≤ e := by
  intro fuel
  induction fuel with
  | zero => intro t step _; exact Or.inl rfl
  | succ f ih =>
    intro t step hstep
    by_cases h : t + chunkdur ≤ e
    · rcases ih (t + step) (chunkdur - overlap) (by omega) with h' | h' <;>
        simp only [truncLoop, h, if_true] <;> right
      · rw [h']; omega
      · exact h'
    · exact Or.inl (by simp [truncLoop, h])

/-- The loop result never decreases. -/
theorem truncLoop_ge (chunkdur overlap e : ℤ) (hoc : overlap ≤ chunkdur) :
    ∀ fuel t step, 0 ≤ step →
      t ≤ truncLoop chunkdur overlap e fuel t step := by
  intro fuel
  induction fuel with
  | zero => intro t step _; exact le_refl t
  | succ f ih =>
    intro t step hstep
    by_cases h : t + chunkdur ≤ e
    · have := ih (t + step) (chunkdur - overlap) (by omega)
      simp only [truncLoop, h, if_true]
      omega
    · simp [truncLoop, h]

/-- The loop result lies on the chunk grid: it is the start, or the start
plus the first step plus a whole number of `(chunkdur - overlap)` steps. -/
theorem truncLoop_grid (chunkdur overlap e : ℤ) :
    ∀ fuel t step,
      truncLoop chunkdur overlap e fuel t step = t ∨
        ∃ k : ℕ, truncLoop chunkdur overlap e fuel t step =
          t + step + k * (chunkdur - overlap) := by
  intro fuel
  induction fuel with
  | zero => intro t step; exact Or.inl rfl
  | succ f ih =>
    intro t step
    by_cases h : t + chunkdur ≤ e
    · simp only [truncLoop, h, if_true]
      rcases ih (t + step) (chunkdur - overlap) with h' | ⟨k, h'⟩
      · exact Or.inr ⟨0, by rw [h']; ring⟩
      · exact Or.inr ⟨k + 1, by rw [h']; push_cast; ring⟩
    · exact Or.inl (by simp [truncLoop, h])

/-- With enough fuel the loop reaches its fixpoint: no further chunk fits. -/
theorem truncLoop_fix (chunkdur overlap e : ℤ) (hc : 0 ≤ chunkdur)
    (hoc : overlap < chunkdur) :
    ∀ (fuel : ℕ) (t step : ℤ), 1 ≤ step → e - t < (fuel : ℤ) →
      e < truncLoop chunkdur overlap e fuel t step + chunkdur := by
  intro fuel
  induction fuel with
  | zero => intro t step _ hf; simp only [truncLoop]; simp at hf; omega
  | succ f ih =>
    intro t step hstep hf
    push_cast at hf
    by_cases h : t + chunkdur ≤ e
    · have := ih (t + step) (chunkdur - overlap) (by omega) (by omega)
      simp only [truncLoop, h, if_true]
      exact this
    · simp only [truncLoop, h, if_false]
      omega

/-- C3: in online new-DAG mode with the trailing segment `[s, e)` ending
exactly at `dataend`: if its duration is below `2*chunkdur` it is removed
and `dataend` becomes `s`; otherwise it is replaced by `[s, t)` where `t`
lies on the chunk grid from `s` (zero chunks, or one chunk plus a whole
number of `(chunkdur - overlap)` steps), no further chunk fits below the
reduced end `e - (chunkdur + padding)`, and the new duration is strictly
smaller than the original duration. -/
theorem end_of_data_truncation (chunkdur overlap padding : ℤ)
    (init : List Seg) (s e : ℤ)
    (hc : 0 < chunkdur) (ho : 0 ≤ overlap) (hoc : overlap < chunkdur)
    (hp : 0 ≤ padding) :
    (segDur (s, e) < chunkdur * 2 →
      truncate_segs true true chunkdur overlap padding e
        (init ++ [(s, e)]) = (init, s)) ∧
    (chunkdur * 2 ≤ segDur (s, e) →
      ∃ t, truncate_segs true true chunkdur overlap padding e
          (init ++ [(s, e)]) = (init ++ [(s, t)], t) ∧
        s ≤ t ∧
        (t - s = 0 ∨ ∃ k : ℕ, t - s = chunkdur + k * (chunkdur - overlap)) ∧
        e - (chunkdur + padding) < t + chunkdur ∧
        t - s < e - s) := by
  have hlast : (init ++ [(s, e)]).getLast? = some (s, e) :=
    List.getLast?_concat init
  have hdrop : (init ++ [(s, e)]).dropLast = init := List.dropLast_concat
  constructor
  · intro hshort
    simp only [segDur] at hshort
    simp [truncate_segs, hlast, hdrop, segDur, hshort]
  · intro hlong
    simp only [segDur] at hlong
    set eRed := e - (chunkdur + padding) with heRed
    set t := truncate_last_end chunkdur overlap padding s e with ht
    have htLoop : t = truncLoop chunkdur overlap eRed ((eRed - s).toNat + 1)
        s chunkdur := rfl
    have hge : s ≤ t := by
      rw [htLoop]
      exact truncLoop_ge chunkdur overlap eRed (le_of_lt hoc) _ s chunkdur
        (by omega)
    have hle : t = s ∨ t ≤ eRed := by
      rw [htLoop]
      exact truncLoop_le chunkdur overlap eRed ho _ s chunkdur (le_refl _)
    have hgrid : t = s ∨ ∃ k : ℕ, t = s + chunkdur + k * (chunkdur - overlap) := by
      rw [htLoop]
      rcases truncLoop_grid chunkdur overlap eRed ((eRed - s).toNat + 1) s
        chunkdur with h' | ⟨k, h'⟩
      · exact Or.inl h'
      · exact Or.inr ⟨k, h'⟩
    have hfix : eRed < t + chunkdur := by
      rw [htLoop]
      refine truncLoop_fix chunkdur overlap eRed (le_of_lt hc) hoc _ s
        chunkdur (by omega) ?_
      have := Int.self_le_toNat (eRed - s)
      push_cast
      omega
    refine ⟨t, ?_, hge, ?_, by omega, ?_⟩
    · have hnotshort : ¬(e - s < chunkdur * 2) := by omega
      simp [truncate_segs, hlast, hdrop, segDur, hnotshort]
    · rcases hgrid with h' | ⟨k, h'⟩
      · exact Or.inl (by omega)
      · exact Or.inr ⟨k, by omega⟩
    · rcases hle with h' | h' <;> omega

/-- Witness for C3 at concrete values: chunk 124, overlap 4, padding 2,
trailing segment `[0, 300)` ending at `dataend = 300`: the duration 300
is at least `2*124`, so the segment is truncated. -/
theorem end_of_data_truncation_witness :
    (0 : ℤ) < 124 ∧ (0 : ℤ) ≤ 4 ∧ (4 : ℤ) < 124 ∧ (0 : ℤ) ≤ 2 ∧
    (∃ t, truncate_segs true true 124 4 2 300 [((0 : ℤ), 300)]
        = ([((0 : ℤ), t)], t) ∧
      (0 : ℤ) ≤ t ∧
      (t - 0 = 0 ∨ ∃ k : ℕ, t - 0 = 124 + k * (124 - 4)) ∧
      (300 : ℤ) - (124 + 2) < t + 124 ∧
      t - 0 < 300 - 0) := by
  refine ⟨by decide, by decide, by decide, by decide, ?_⟩
  have h := (end_of_data_truncation 124 4 2 [] 0 300
    (by decide) (by decide) (by decide) (by decide)).2
    (by decide)
  simpa using h

/-! ## Trigger segments (process.py lines 938 and 962)

`segs = type(segs)(s for s in segs if abs(s) >= segdur)` followed by
`trigsegs = type(segs)(type(s)(*s) for s in segs).contract(padding)`. -/

/-- The shape of a coalesced segment list: sorted, strictly separated,
non-degenerate segments (what `segmentlist.coalesce` guarantees of the
list entering the minimum-duration filter). -/
def Coalesced (xs : List Seg) : Prop :=
  xs.Pairwise (fun a b => a.2 < b.1) ∧ ∀ s ∈ xs, s.1 < s.2

/-- On an already-merged list the merge sweep is the identity. -/
theorem mergeInto_eq_self (cur : Seg) (rest : List Seg)
    (hcur : cur.1 < cur.2) (hlt : ∀ b ∈ rest, cur.2 < b.1)
    (hpair : rest.Pairwise (fun a b => a.2 < b.1))
    (hpos : ∀ s ∈ rest, s.1 < s.2) :
    mergeInto cur rest = cur :: rest := by
  induction rest generalizing cur with
  | nil => simp [mergeInto, hcur]
  | cons b rest' ih =>
    have hb1 : cur.2 < b.1 := hlt b (List.mem_cons_self b rest')
    rw [List.pairwise_cons] at hpair
    simp only [mergeInto]
    rw [if_neg (by omega), if_pos hcur]
    have := ih b (hpos b (List.mem_cons_self b rest'))
      (fun d hd => hpair.1 d hd) hpair.2
      (fun d hd => hpos d (List.mem_cons_of_mem b hd))
    rw [this]
    rfl

/-- On a coalesced list the merge sweep is the identity. -/
theorem mergePass_eq_self (xs : List Seg) (h : Coalesced xs) :
    mergePass xs = xs := by
  rcases xs with _ | ⟨a, rest⟩
  · rfl
  · obtain ⟨hpair, hpos⟩ := h
    rw [List.pairwise_cons] at hpair
    exact mergeInto_eq_self a rest (hpos a (List.mem_cons_self a rest))
      (fun d hd => hpair.1 d hd) hpair.2
      (fun d hd => hpos d (List.mem_cons_of_mem a hd))

/-- A coalesced list is sorted for the Python tuple order. -/
theorem coalesced_sorted (xs : List Seg) (h : Coalesced xs) :
    xs.Sorted segLe := by
  obtain ⟨hpair, hpos⟩ := h
  refine hpair.imp_of_mem ?_
  intro a b ha _ hab
  exact Or.inl (by have := hpos a ha; omega)

/-- `coalesce` is the identity on coalesced lists. -/
theorem coalesceList_eq_self (xs : List Seg) (h : Coalesced xs) :
    coalesceList xs = xs := by
  unfold coalesceList
  rw [List.Sorted.insertionSort_eq (coalesced_sorted xs h),
    mergePass_eq_self xs h]

/-- C9: with `2*padding < segdur`, the trigger list is exactly the
minimum-duration-filtered processing list with each segment contracted by
`padding` on both sides — every surviving segment has duration
`> 2*padding` and its trigger loses exactly `2*padding` of duration — and
every processing segment of duration `≤ 2*padding` is dropped by the
filter before contraction, yielding no trigger segment. -/
theorem trigger_segments_contract (padding segdur : ℤ) (segs : List Seg)
    (hp : 0 ≤ padding) (hd : 2 * padding < segdur) (hco : Coalesced segs) :
    contractList padding (segs.filter (fun s => segdur ≤ segDur s)) =
      (segs.filter (fun s => segdur ≤ segDur s)).map
        (fun s => (s.1 + padding, s.2 - padding)) ∧
    (∀ s ∈ segs.filter (fun s => segdur ≤ segDur s),
      2 * padding < segDur s ∧
      segDur ((s.1 + padding, s.2 - padding) : Seg) = segDur s - 2 * padding) ∧
    (∀ s ∈ segs, segDur s ≤ 2 * padding →
      s ∉ segs.filter (fun s => segdur ≤ segDur s)) := by
  obtain ⟨hpair, hpos⟩ := hco
  have hsub : (segs.filter (fun s => segdur ≤ segDur s)).Sublist segs :=
    List.filter_sublist segs
  have hfs_dur : ∀ s ∈ segs.filter (fun s => segdur ≤ segDur s),
      2 * padding < segDur s := by
    intro s hs
    rw [List.mem_filter] at hs
    have := of_decide_eq_true hs.2
    omega
  refine ⟨?_, ?_, ?_⟩
  · have hmapeq : (segs.filter (fun s => segdur ≤ segDur s)).map
        (contractSeg padding) =
        (segs.filter (fun s => segdur ≤ segDur s)).map
          (fun s => (s.1 + padding, s.2 - padding)) := by
      refine List.map_congr_left ?_
      intro s hs
      have := hfs_dur s hs
      simp only [segDur] at this
      unfold contractSeg mkSeg
      rw [if_pos (by omega)]
    have hcoal : Coalesced ((segs.filter (fun s => segdur ≤ segDur s)).map
        (fun s => (s.1 + padding, s.2 - padding))) := by
      constructor
      · rw [List.pairwise_map]
        refine (hpair.sublist hsub).imp_of_mem ?_
        intro a b _ _ hab
        dsimp only
        omega
      · intro s hs
        rw [List.mem_map] at hs
        obtain ⟨d, hd', rfl⟩ := hs
        have := hfs_dur d hd'
        simp only [segDur] at this
        dsimp only
        omega
    unfold contractList
    rw [hmapeq, coalesceList_eq_self _ hcoal]
  · intro s hs
    refine ⟨hfs_dur s hs, ?_⟩
    simp only [segDur]
    ring
  · intro s _ hdur hmem
    have := hfs_dur s hmem
    omega

/-- Witness for C9 at a concrete input: segments `[0, 100)` and
`[200, 300)` with `segdur = 64`, `padding = 2`: both survive the filter
and contract to `[2, 98)` and `[202, 298)`. -/
theorem trigger_segments_contract_witness :
    (0 : ℤ) ≤ 2 ∧ 2 * (2 : ℤ) < 64 ∧
    contractList 2 ([((0 : ℤ), 100), (200, 300)].filter
        (fun s => 64 ≤ segDur s)) =
      ([((0 : ℤ), 100), (200, 300)].filter (fun s => 64 ≤ segDur s)).map
        (fun s => (s.1 + 2, s.2 - 2)) := by
  refine ⟨by decide, by decide, ?_⟩
  exact (trigger_segments_contract 2 64 [((0 : ℤ), 100), (200, 300)]
    (by decide) (by decide)
    ⟨by decide, by decide⟩).1

/-! ## Bounded-concurrency ladder (process.py lines 1225-1242)

```
parent_jobs = list(); child_jobs = list()
for j in omicron_nodes:
    if len(parent_jobs) < maxcon: parent_jobs.append(j)
    elif len(child_jobs) < maxcon: child_jobs.append(j)
    else:
        for pj in parent_jobs:
            for cj in child_jobs: cj.add_parent(pj)
        parent_jobs = child_jobs
        child_jobs = [j]
if len(child_jobs) > 0 and len(parent_jobs) > 0:
    for pj in parent_jobs:
        for cj in child_jobs: cj.add_parent(pj)
```

Omicron nodes are numbered `0, 1, 2, ...` in creation order; an edge
`(p, c)` records `c.add_parent(p)`. -/

/-- The loop state: current parent wave, the child wave being filled, and
the dependency edges recorded so far. -/
structure LadderState where
  parent_jobs : List ℕ
  child_jobs : List ℕ
  edges : List (ℕ × ℕ)
deriving DecidableEq, Repr

/-- The nested `for pj in parent_jobs: for cj in child_jobs:
cj.add_parent(pj)` loops: all edges from `ps` to `cs` in recording order. -/
def crossEdges (ps cs : List ℕ) : List (ℕ × ℕ) :=
  ps.flatMap (fun pj => cs.map (fun cj => (pj, cj)))

/-- One iteration of the `for j in omicron_nodes` loop. -/
def ladderStep (maxcon : ℕ) (st : LadderState) (j : ℕ) : LadderState :=
  if st.parent_jobs.length < maxcon then
    { st with parent_jobs := st.parent_jobs ++ [j] }
  else if st.child_jobs.length < maxcon then
    { st with child_jobs := st.child_jobs ++ [j] }
  else
    { parent_jobs := st.child_jobs, child_jobs := [j],
      edges := st.edges ++ crossEdges st.parent_jobs st.child_jobs }

/-- The trailing `if len(child_jobs) > 0 and len(parent_jobs) > 0` link. -/
def ladderFinal (st : LadderState) : List (ℕ × ℕ) :=
  if 0 < st.child_jobs.length ∧ 0 < st.parent_jobs.length then
    st.edges ++ crossEdges st.parent_jobs st.child_jobs
  else st.edges

/-- All primary-to-primary dependency edges produced for `n` omicron nodes
with `--max-concurrent maxcon`. -/
def primary_edges (n maxcon : ℕ) : List (ℕ × ℕ) :=
  ladderFinal ((List.range n).foldl (ladderStep maxcon) ⟨[], [], []⟩)

/-- Wave `a` of the ladder: the nodes `a*m, ..., a*m + m - 1`. -/
def waveList (m a : ℕ) : List ℕ := (List.range m).map (fun i => a * m + i)

/-- The adjacent-wave edge blocks between waves `0..b`. -/
def edgesUpTo (m : ℕ) : ℕ → List (ℕ × ℕ)
  | 0 => []
  | b + 1 => edgesUpTo m b ++ crossEdges (waveList m b) (waveList m (b + 1))

/-- Closed form of the loop state after the first `k` nodes. -/
def stateAfter (m k : ℕ) : LadderState :=
  if k ≤ m then ⟨List.range k, [], []⟩
  else
    ⟨waveList m ((k - 1) / m - 1),
      (List.range (k - (k - 1) / m * m)).map (fun i => (k - 1) / m * m + i),
      edgesUpTo m ((k - 1) / m - 1)⟩

theorem waveList_length (m a : ℕ) : (waveList m a).length = m := by
  simp [waveList]

/-- Division characterised by linear bounds (forward direction). -/
theorem div_eq_of_bounds {x m a : ℕ} (hm : 0 < m) (h1 : a * m ≤ x)
    (h2 : x < a * m + m) : x / m = a := by
  have hle : a ≤ x / m := (Nat.le_div_iff_mul_le hm).mpr h1
  have hma : m * (a + 1) = a * m + m := by ring
  have hlt : x / m < a + 1 := Nat.div_lt_of_lt_mul (by rw [hma]; exact h2)
  omega

/-- Division characterised by linear bounds (backward direction). -/
theorem bounds_of_div_eq {x m a : ℕ} (hm : 0 < m) (h : x / m = a) :
    a * m ≤ x ∧ x < a * m + m := by
  subst h
  refine ⟨Nat.div_mul_le_self x m, ?_⟩
  have h1 := Nat.div_add_mod x m
  have h2 := Nat.mod_lt x hm
  have h3 : m * (x / m) = x / m * m := Nat.mul_comm _ _
  omega

theorem mem_waveList {m a p : ℕ} (hm : 0 < m) :
    p ∈ waveList m a ↔ p / m = a := by
  simp only [waveList, List.mem_map, List.mem_range]
  constructor
  · rintro ⟨i, hi, rfl⟩
    exact div_eq_of_bounds hm (by omega) (by omega)
  · intro h
    obtain ⟨h1, h2⟩ := bounds_of_div_eq hm h
    exact ⟨p - a * m, by omega, by omega⟩

theorem mem_crossEdges {ps cs : List ℕ} {p c : ℕ} :
    (p, c) ∈ crossEdges ps cs ↔ p ∈ ps ∧ c ∈ cs := by
  simp only [crossEdges, List.mem_flatMap, List.mem_map]
  constructor
  · rintro ⟨pj, hp, cj, hc, h⟩
    cases h
    exact ⟨hp, hc⟩
  · rintro ⟨hp, hc⟩
    exact ⟨p, hp, c, hc, rfl⟩

theorem mem_edgesUpTo {m b p c : ℕ} (hm : 0 < m) :
    (p, c) ∈ edgesUpTo m b ↔ (c / m = p / m + 1 ∧ p / m < b) := by
  induction b with
  | zero => simp [edgesUpTo]
  | succ b ih =>
    simp only [edgesUpTo, List.mem_append, ih, mem_crossEdges,
      mem_waveList hm]
    constructor
    · rintro (⟨h1, h2⟩ | ⟨hp, hc⟩)
      · exact ⟨h1, by omega⟩
      · exact ⟨by omega, by omega⟩
    · rintro ⟨h1, h2⟩
      by_cases hb : p / m < b
      · exact Or.inl ⟨h1, hb⟩
      · exact Or.inr ⟨by omega, by omega⟩

/-- One loop step takes the closed-form state at `k` to that at `k + 1`. -/
theorem ladderStep_state (m : ℕ) (hm : 0 < m) (k : ℕ) :
    ladderStep m (stateAfter m k) k = stateAfter m (k + 1) := by
  rcases lt_trichotomy k m with hk | hk | hk
  · have h1 : k ≤ m := hk.le
    have h2 : k + 1 ≤ m := hk
    simp [stateAfter, ladderStep, h1, h2, hk, List.range_succ]
  · subst hk
    have e1 : k + 1 - 1 = k := by omega
    have e2 : k / k = 1 := Nat.div_self hm
    have e3 : k + 1 - 1 * k = 1 := by omega
    simp [stateAfter, ladderStep, hm, e1, e2, e3, waveList, edgesUpTo,
      Nat.lt_irrefl, List.range_succ]
  · have hk1 : ¬ k ≤ m := by omega
    have hk2 : ¬ (k + 1 ≤ m) := by omega
    have ek : k + 1 - 1 = k := by omega
    simp only [stateAfter, if_neg hk1, if_neg hk2, ek]
    set a := (k - 1) / m with ha
    obtain ⟨hb1, hb2⟩ := bounds_of_div_eq hm ha.symm
    have ha1 : 1 ≤ a := (Nat.one_le_div_iff hm).mpr (by omega)
    by_cases hfull : k - a * m < m
    · have hdiv : k / m = a := div_eq_of_bounds hm (by omega) (by omega)
      simp only [hdiv]
      unfold ladderStep
      dsimp only
      rw [if_neg (by simp [waveList_length]), if_pos (by simpa using hfull)]
      have e4 : k + 1 - a * m = (k - a * m) + 1 := by omega
      have e5 : a * m + (k - a * m) = k := by omega
      rw [e4, List.range_succ, List.map_append]
      simp [e5]
    · have hfull' : k - a * m = m := by omega
      have hsucc : (a + 1) * m = a * m + m := by ring
      have hk3 : k = a * m + m := by omega
      have hdiv : k / m = a + 1 := div_eq_of_bounds hm (by omega) (by omega)
      simp only [hdiv]
      unfold ladderStep
      dsimp only
      rw [if_neg (by simp [waveList_length]), if_neg (by simp [hfull'])]
      have e7 : a + 1 - 1 = a := by omega
      have e6 : k + 1 - (a + 1) * m = 1 := by omega
      simp only [e6, e7]
      rw [hfull']
      have echild : (List.range m).map (fun i => a * m + i) = waveList m a :=
        rfl
      rw [echild]
      have e8 : (a + 1) * m = k := by omega
      have e9 : a - 1 + 1 = a := by omega
      have eedges : edgesUpTo m a = edgesUpTo m (a - 1) ++
          crossEdges (waveList m (a - 1)) (waveList m a) := by
        conv_lhs => rw [← e9]
        rw [edgesUpTo, e9]
      rw [eedges]
      simp [e8, show List.range 1 = [0] from rfl]

/-- The loop state after processing nodes `0..k-1` in creation order. -/
theorem ladder_state (m : ℕ) (hm : 0 < m) :
    ∀ k, (List.range k).foldl (ladderStep m) ⟨[], [], []⟩ = stateAfter m k := by
  intro k
  induction k with
  | zero => simp [stateAfter, Nat.zero_le]
  | succ k ih =>
    rw [List.range_succ, List.foldl_append, ih]
    simp only [List.foldl_cons, List.foldl_nil]
    exact ladderStep_state m hm k

/-- C6: for `maxcon ≥ 1` the ladder partitions the `n` primary nodes into
consecutive waves of `maxcon` nodes (node `i` belongs to wave `i / maxcon`,
so every wave has at most `maxcon` nodes), and records an edge `(p, c)`
exactly when `c`'s wave directly follows `p`'s wave; in particular no other
primary-to-primary edge exists, and first-wave nodes have no primary
parents. -/
theorem concurrency_ladder_edges (n m p c : ℕ) (hm : 1 ≤ m) :
    (p, c) ∈ primary_edges n m ↔
      (p < n ∧ c < n ∧ c / m = p / m + 1) := by
  unfold primary_edges
  rw [ladder_state m hm n]
  by_cases hn : n ≤ m
  · refine iff_of_false ?_ ?_
    · simp [stateAfter, hn, ladderFinal]
    · rintro ⟨hp, hc, hpc⟩
      have h0 : c / m = 0 := Nat.div_eq_of_lt (by omega)
      rw [h0] at hpc
      exact Nat.succ_ne_zero _ hpc.symm
  · push_neg at hn
    simp only [stateAfter, if_neg (by omega : ¬ n ≤ m)]
    set a := (n - 1) / m with ha
    obtain ⟨hb1, hb2⟩ := bounds_of_div_eq hm ha.symm
    have ha1 : 1 ≤ a := (Nat.one_le_div_iff hm).mpr (by omega)
    unfold ladderFinal
    dsimp only
    rw [if_pos (by simp [waveList_length]; omega)]
    have hchild : ∀ x : ℕ,
        (x ∈ (List.range (n - a * m)).map (fun i => a * m + i)) ↔
          (a * m ≤ x ∧ x < n) := by
      intro x
      simp only [List.mem_map, List.mem_range]
      constructor
      · rintro ⟨i, hi, rfl⟩; omega
      · rintro ⟨h1, h2⟩; exact ⟨x - a * m, by omega, by omega⟩
    rw [List.mem_append, mem_edgesUpTo hm, mem_crossEdges,
      mem_waveList hm, hchild]
    have hupper : ∀ x b : ℕ, x / m + 1 ≤ b → x < b * m := by
      intro x b hb
      obtain ⟨h1, h2⟩ := bounds_of_div_eq hm (rfl : x / m = x / m)
      calc x < x / m * m + m := h2
        _ = (x / m + 1) * m := by ring
        _ ≤ b * m := Nat.mul_le_mul_right m hb
    constructor
    · rintro (⟨h1, h2⟩ | ⟨hp, hc1, hc2⟩)
      · have hpn : p < (a - 1) * m := hupper p (a - 1) (by omega)
        have hcn : c < a * m := hupper c a (by omega)
        have hstep : (a - 1) * m ≤ a * m :=
          Nat.mul_le_mul_right m (by omega)
        exact ⟨by omega, by omega, h1⟩
      · have hcdiv : c / m = a := div_eq_of_bounds hm hc1 (by omega)
        have hpn : p < a * m := hupper p a (by omega)
        exact ⟨by omega, hc2, by omega⟩
    · rintro ⟨hp, hc, hpc⟩
      have hcm : c / m ≤ a := by
        rw [ha]
        exact Nat.div_le_div_right (by omega : c ≤ n - 1)
      by_cases hca : c / m = a
      · obtain ⟨h1, h2⟩ := bounds_of_div_eq hm hca
        exact Or.inr ⟨by omega, h1, hc⟩
      · exact Or.inl ⟨hpc, by omega⟩

/-- Witness for C6 at concrete values: 5 nodes with `maxcon = 2` give the
waves `{0,1}, {2,3}, {4}`; the edge `(0, 2)` is present and the skipping
edge `(0, 4)` is absent. -/
theorem concurrency_ladder_edges_witness :
    ((0, 2) ∈ primary_edges 5 2 ↔ (0 < 5 ∧ 2 < 5 ∧ 2 / 2 = 0 / 2 + 1)) ∧
    ((0, 4) ∈ primary_edges 5 2 ↔ (0 < 5 ∧ 4 < 5 ∧ 4 / 2 = 0 / 2 + 1)) :=
  ⟨concurrency_ladder_edges 5 2 0 2 (by decide),
   concurrency_ladder_edges 5 2 0 4 (by decide)⟩

end PyOmicron
